import Mathlib

/-!
# zo-kit: the buffered log sink and the request-signing helper

Shallow embedding of `internal/log/log.go` (the `lumberjackWriteSyncer`
that batches log records in front of a rotating file writer) and of
`internal/sign/sign.go` (canonical query and signature of a record).

Conventions.
* A Go `[]byte` / `string` is a list of bytes (`GoString`).
* A Go channel is the list of values it holds (head = next value received)
  together with its capacity; a send that would block is `none`.
* A goroutine is a step function: one call of `runStep` is one iteration
  of the `for`/`select` loop of `run`, for the `select` case named by
  the event; a case that is not ready is `none`.
* The rotating file writer (lumberjack) is outside the repository: it is
  the list of batches it was handed, and what its `Write` returns is an
  arbitrary function of that history and of the batch.
-/

namespace ZoKit

/-- One byte. -/
abbrev Byte := Fin 256

/-- Go `string` / `[]byte`: a sequence of bytes. -/
abbrev GoString := List Byte

/-- Go `error` values are represented by their message; `nil` is `none`. -/
abbrev GoError := String

/-- ASCII text as bytes (used for literals only). -/
def ascii (s : String) : GoString := s.toList.map (fun c => Fin.ofNat c.toNat)

/-! ## internal/log/log.go -/

namespace Log

/-- The embedded `*lumberjack.Logger`, seen from the sink: the batches it was
handed by `Write`, oldest first. -/
structure LumberjackLogger where
  received : List GoString
deriving DecidableEq, Repr

/-- What the rotating writer answers to one `Write`, as a function of the
batches it received before and of the batch: the count and the error. -/
abbrev Respond := List GoString → GoString → Nat × Option GoError

/-- Call `Logger.Write(p)`: the batch is handed over, the writer answers. -/
def LumberjackLogger.Write (respond : Respond) (lg : LumberjackLogger) (p : GoString) :
    LumberjackLogger × (Nat × Option GoError) :=
  ({ received := lg.received ++ [p] }, respond lg.received p)

/-- The struct `lumberjackWriteSyncer`. `logChan` is the buffered channel
(contents and capacity), `closeChan` is true once the channel was closed,
`running` is true while the goroutine started by the constructor is alive.
`maxSize` is an `int` in the source; it is a byte count, only ever set by the
constructor (to 1024), and is kept as a natural number. -/
structure lumberjackWriteSyncer where
  Logger : LumberjackLogger
  buf : GoString
  logChan : List GoString
  logChanCap : Nat
  closeChan : Bool
  maxSize : Nat
  running : Bool
deriving DecidableEq, Repr

/-- A rotating writer that has not been handed anything yet. -/
def freshLogger : LumberjackLogger := { received := [] }

/-- The constructor's struct literal with the channel capacity and the
threshold left open, and `go ws.run()`. -/
def newSyncerWith (lg : LumberjackLogger) (cap maxSize : Nat) : lumberjackWriteSyncer :=
  { Logger := lg, buf := [], logChan := [], logChanCap := cap,
    closeChan := false, maxSize := maxSize, running := true }

/-- `newLumberjackWriteSyncer`: capacity 5000, threshold 1024. -/
def newLumberjackWriteSyncer (lg : LumberjackLogger) : lumberjackWriteSyncer :=
  newSyncerWith lg 5000 1024

/-- `sync`: `Logger.Write(l.buf.Bytes())`, the error (if any) is returned,
and the deferred `l.buf.Reset()` runs on every path. -/
def sync (respond : Respond) (l : lumberjackWriteSyncer) :
    lumberjackWriteSyncer × Option GoError :=
  let r := l.Logger.Write respond l.buf
  let err := r.2.2
  let result : Option GoError :=
    match err with
    | some e => some e
    | none => none
  ({ l with Logger := r.1, buf := [] }, result)

/-- The three cases of the `select` in `run`. -/
inductive Event where
  | tick
  | recv
  | closed
deriving DecidableEq, Repr

/-- One iteration of the loop of `run`, for the `select` case `e`.
`none`: the goroutine has returned, or the case is not ready (nothing in
`logChan`, `closeChan` not closed). `bytes.Buffer.Write` always returns a
nil error, so the `continue` branch is never taken. -/
def runStep (respond : Respond) (l : lumberjackWriteSyncer) (e : Event) :
    Option lumberjackWriteSyncer :=
  if l.running then
    match e with
    | Event.tick =>
        if l.buf.length > 0 then some (sync respond l).1 else some l
    | Event.recv =>
        match l.logChan with
        | [] => none
        | bs :: rest =>
            let l1 := { l with logChan := rest, buf := l.buf ++ bs }
            if l1.buf.length > l1.maxSize then some (sync respond l1).1 else some l1
    | Event.closed =>
        if l.closeChan then
          some { (sync respond l).1 with running := false }
        else none
  else none

/-- Go's builtin `copy(dst, src)`: the first `min(len dst, len src)` bytes of
`dst` are overwritten. -/
def goCopy (dst src : GoString) : GoString :=
  src.take dst.length ++ dst.drop src.length

/-- `Stop`: `close(l.closeChan)`; closing a closed channel panics. -/
def Stop (l : lumberjackWriteSyncer) : Except String lumberjackWriteSyncer :=
  if l.closeChan then Except.error "close of closed channel"
  else Except.ok { l with closeChan := true }

/-- `Write`: copy `bs`, send the copy on `logChan`, return `0, nil`.
`none`: the channel is full and the send blocks. -/
def Write (l : lumberjackWriteSyncer) (bs : GoString) :
    Option (lumberjackWriteSyncer × (Nat × Option GoError)) :=
  let b := goCopy (List.replicate bs.length 0) bs
  if l.logChan.length < l.logChanCap then
    some ({ l with logChan := l.logChan ++ [b] }, (0, none))
  else none

/-- `Sync`: returns nil. -/
def Sync (_l : lumberjackWriteSyncer) : Option GoError := none

/-- What can happen to a sink: a producer's `Write` returns, `Stop` is
called, or the worker goroutine runs one loop iteration. -/
inductive Action where
  | write (bs : GoString)
  | stop
  | worker (e : Event)
deriving DecidableEq, Repr

/-- One action. `none`: the action cannot happen in this state (blocked
send, `select` case not ready, exited goroutine, panic in `Stop`). -/
def step (respond : Respond) (l : lumberjackWriteSyncer) : Action → Option lumberjackWriteSyncer
  | Action.write bs => (Write l bs).map Prod.fst
  | Action.stop =>
      match Stop l with
      | Except.ok l1 => some l1
      | Except.error _ => none
  | Action.worker e => runStep respond l e

/-- A run: the actions happen one after the other. -/
def exec (respond : Respond) : List Action → lumberjackWriteSyncer → Option lumberjackWriteSyncer
  | [], l => some l
  | a :: rest, l =>
      match step respond l a with
      | some l1 => exec respond rest l1
      | none => none

/-- The records passed to `Write` in a run, in call order. -/
def writtenRecords : List Action → List GoString
  | [] => []
  | Action.write bs :: rest => bs :: writtenRecords rest
  | _ :: rest => writtenRecords rest

/-- The sink after a flush of its whole buffer: one more batch at the
writer, holding the buffer's bytes, and an empty buffer. -/
def flushed (l : lumberjackWriteSyncer) : lumberjackWriteSyncer :=
  { l with Logger := { received := l.Logger.received ++ [l.buf] }, buf := [] }

/-- A writer that accepts every batch in full. -/
def acceptAll : Respond := fun _ p => (p.length, none)

/-- A writer that rejects every batch. -/
def rejectAll : Respond := fun _ _ => (0, some "write failed")

/-- Everything the sink holds or has handed on, oldest byte first: the
batches handed to the writer, then the buffer, then the queued records. -/
def inFlight (l : lumberjackWriteSyncer) : GoString :=
  l.Logger.received.flatten ++ l.buf ++ l.logChan.flatten

/-- What holds of a sink whose worker has exited: the buffer was flushed and
the close channel is closed. -/
def ExitedClean (l : lumberjackWriteSyncer) : Prop :=
  l.running = false → l.buf = [] ∧ l.closeChan = true

/-! ### Runs and states used as examples -/

/-- The run used against C3: a record is accepted, `Stop` is called, and the
worker's `select` takes the close case while the record is still queued. -/
def stopBeforeReceive : List Action :=
  [Action.write (ascii "a"), Action.stop, Action.worker Event.closed]

/-- The state of a new sink after `Stop` and the worker's exit, written out. -/
def exitedSink : lumberjackWriteSyncer :=
  { Logger := { received := [[]] }, buf := [], logChan := [], logChanCap := 5000,
    closeChan := true, maxSize := 1024, running := false }

/-- The sink after `Stop` and after the worker handled the close signal. -/
def stoppedSink : Option lumberjackWriteSyncer :=
  exec acceptAll [Action.stop, Action.worker Event.closed] (newLumberjackWriteSyncer freshLogger)

/-- A run with threshold 4: two 3-byte records are written and received. -/
def smallThresholdRun : List Action :=
  [Action.write (ascii "abc"), Action.worker Event.recv, Action.write (ascii "def"),
    Action.worker Event.recv, Action.write (ascii "g"), Action.worker Event.recv]

/-- The scenario of C6: the records "ab", "cd", "efghij" are written, then
received by the worker in that order; no tick, no close. -/
def threeRecords : List Action :=
  [Action.write (ascii "ab"), Action.write (ascii "cd"), Action.write (ascii "efghij"),
    Action.worker Event.recv, Action.worker Event.recv, Action.worker Event.recv]

/-- The same scenario with each record received right after it is written. -/
def threeRecordsAlternating : List Action :=
  [Action.write (ascii "ab"), Action.worker Event.recv, Action.write (ascii "cd"),
    Action.worker Event.recv, Action.write (ascii "efghij"), Action.worker Event.recv]

/-- A running sink with "xyz" in its buffer and the record "Q" queued. -/
def sinkHoldingXyzQueued : lumberjackWriteSyncer :=
  { Logger := { received := [ascii "ab"] }, buf := ascii "xyz", logChan := [ascii "Q"],
    logChanCap := 5000, closeChan := false, maxSize := 1024, running := true }

/-- A running sink with "xyz" in its buffer. -/
def sinkHoldingXyz : lumberjackWriteSyncer :=
  { Logger := { received := [ascii "ab"] }, buf := ascii "xyz", logChan := [],
    logChanCap := 5000, closeChan := false, maxSize := 1024, running := true }

end Log

/-! ## internal/sign/sign.go -/

namespace Sign

/-- The two things `json2UrlValues` does with a `float64`: the test
`val > 0` and `strconv.FormatFloat(val, 'f', -1, 64)`. Floating point is
kept abstract: `F` stands for `float64`. -/
structure Float64Ops (F : Type) where
  gtZero : F → Bool
  format : F → GoString

/-- The value of a struct field, by `reflect.Kind`, for the four kinds the
`switch` of `json2UrlValues` handles. `Int()` of an `int` or `int64` field
is an `int64`, kept as an integer. -/
inductive FieldValue (F : Type) where
  | String (val : GoString)
  | Float64 (val : F)
  | Int (val : Int)
  | Int64 (val : Int)

/-- One struct field as `json2UrlValues` sees it: `Tag.Get("json")` and the
value. -/
structure StructField (F : Type) where
  tag : GoString
  value : FieldValue F

/-- Go `url.Values`, a `map[string][]string`: the entries, one for each key. -/
abbrev Values := List (GoString × List GoString)

/-- `Values.Set(key, value)`: `v[key] = []string{value}`. -/
def Values.Set : Values → GoString → GoString → Values
  | [], key, value => [(key, [value])]
  | (k, vs) :: rest, key, value =>
      if k = key then (key, [value]) :: rest else (k, vs) :: Values.Set rest key value

/-- Map lookup `v[key]`: the zero value (no strings) for an absent key. -/
def Values.get : Values → GoString → List GoString
  | [], _ => []
  | (k, vs) :: rest, key => if k = key then vs else Values.get rest key

/-- Go's `<=` on strings: lexicographic on bytes. -/
def strLe : GoString → GoString → Bool
  | [], _ => true
  | _ :: _, [] => false
  | a :: s, b :: t => if a < b then true else if b < a then false else strLe s t

/-- `slices.Sort(keys)`: the keys in ascending order. -/
def sortStrings (keys : List GoString) : List GoString :=
  keys.insertionSort (fun a b => strLe a b = true)

/-- `"0123456789ABCDEF"[n]`. -/
def upperhex (n : Nat) : Byte :=
  if n < 10 then Fin.ofNat (48 + n) else Fin.ofNat (65 + (n - 10))

/-- `"0123456789abcdef"[n]`. -/
def hextable (n : Nat) : Byte :=
  if n < 10 then Fin.ofNat (48 + n) else Fin.ofNat (97 + (n - 10))

/-- `shouldEscape(c, encodeQueryComponent)` of net/url: letters, digits and
`-`, `_`, `.`, `~` are kept, every other byte is escaped. -/
def shouldEscape (c : Byte) : Bool :=
  if (97 ≤ c.val ∧ c.val ≤ 122) ∨ (65 ≤ c.val ∧ c.val ≤ 90) ∨ (48 ≤ c.val ∧ c.val ≤ 57) then false
  else if c.val = 45 ∨ c.val = 95 ∨ c.val = 46 ∨ c.val = 126 then false
  else true

/-- `url.QueryEscape`: a space becomes `+`, any other escaped byte becomes
`%` and its two upper-case hex digits. -/
def QueryEscape : GoString → GoString
  | [] => []
  | c :: rest =>
      if shouldEscape c then
        if c.val = 32 then 43 :: QueryEscape rest
        else 37 :: upperhex (c.val >>> 4) :: upperhex (c.val &&& 15) :: QueryEscape rest
      else c :: QueryEscape rest

/-- `ishex` of net/url. -/
def ishex (c : Byte) : Bool :=
  (48 ≤ c.val ∧ c.val ≤ 57) ∨ (97 ≤ c.val ∧ c.val ≤ 102) ∨ (65 ≤ c.val ∧ c.val ≤ 70)

/-- `unhex` of net/url. -/
def unhex (c : Byte) : Nat :=
  if 48 ≤ c.val ∧ c.val ≤ 57 then c.val - 48
  else if 97 ≤ c.val ∧ c.val ≤ 102 then c.val - 97 + 10
  else if 65 ≤ c.val ∧ c.val ≤ 70 then c.val - 65 + 10
  else 0

/-- `url.QueryUnescape`: `%XX` becomes the byte, `+` a space; `none` is the
`EscapeError` for a `%` not followed by two hex digits. -/
def QueryUnescape : GoString → Option GoString
  | [] => some []
  | c :: rest =>
      if c.val = 37 then
        match rest with
        | h1 :: h2 :: rest2 =>
            if ishex h1 ∧ ishex h2 then
              (QueryUnescape rest2).map
                (fun t => Fin.ofNat ((unhex h1 <<< 4) ||| unhex h2) :: t)
            else none
        | _ => none
      else if c.val = 43 then (QueryUnescape rest).map (fun t => 32 :: t)
      else (QueryUnescape rest).map (fun t => c :: t)

/-- The body of `Values.Encode` once the keys have been collected by
`for k := range v` (in `ranged`, an order the map chooses): the keys are
sorted, then for each key and each of its values `&` (unless the output is
still empty), the escaped key, `=` and the escaped value are appended. -/
def Values.EncodeFrom (v : Values) (ranged : List GoString) : GoString :=
  let keys := sortStrings ranged
  keys.foldl
    (fun buf k =>
      let keyEscaped := QueryEscape k
      (v.get k).foldl
        (fun buf x =>
          (if buf.length > 0 then buf ++ [38] else buf) ++ keyEscaped ++ [61] ++ QueryEscape x)
        buf)
    []

/-- `Values.Encode`, the keys ranged over in the order of the entries. -/
def Values.Encode (v : Values) : GoString :=
  v.EncodeFrom (v.map Prod.fst)

/-- `strings.Index(s, substr)`: the index of the first occurrence, or -1. -/
def stringsIndex (s substr : GoString) : Int :=
  if substr.isPrefixOf s then 0
  else
    match s with
    | [] => -1
    | _ :: t =>
        let i := stringsIndex t substr
        if i < 0 then -1 else i + 1

/-- `strconv.Itoa` / `strconv.FormatInt(val, 10)`: the decimal digits, with
a leading `-` for a negative number. -/
def formatInt (val : Int) : GoString := ascii (toString val)

/-- The body of the loop of `json2UrlValues` for one field. -/
def json2UrlValuesField {F : Type} (fl : Float64Ops F) (values : Values) (f : StructField F) :
    Values :=
  let key := f.tag
  if key ≠ ascii "-" ∧ key ≠ ascii "sign" then
    match f.value with
    | FieldValue.String val =>
        if val ≠ [] then values.Set key val else values
    | FieldValue.Float64 val =>
        if fl.gtZero val then values.Set key (fl.format val) else values
    | FieldValue.Int val =>
        if val > 0 then values.Set key (formatInt val) else values
    | FieldValue.Int64 val =>
        if val > 0 then
          let index := stringsIndex key (ascii ",string")
          let key := if index > -1 then key.take index.toNat else key
          values.Set key (formatInt val)
        else values
  else values

/-- `json2UrlValues` on a struct, given as the list of its fields in
declaration order. -/
def json2UrlValues {F : Type} (fl : Float64Ops F) (data : List (StructField F)) : Values :=
  data.foldl (json2UrlValuesField fl) []

/-- `hex.EncodeToString`. -/
def hexEncodeToString (src : GoString) : GoString :=
  src.flatMap (fun b => [hextable (b.val >>> 4), hextable (b.val &&& 15)])

/-- `strings.ToUpper` on an ASCII string (the only strings it is applied to
here are hex digits): `a`..`z` become `A`..`Z`. -/
def stringsToUpper (s : GoString) : GoString :=
  s.map (fun c => if 97 ≤ c.val ∧ c.val ≤ 122 then Fin.ofNat (c.val - 32) else c)

/-- `md5Sign`: the hex digest; `md5Sum` stands for crypto/md5. -/
def md5Sign (md5Sum : GoString → GoString) (param : GoString) : GoString :=
  hexEncodeToString (md5Sum param)

/-- `sign`: the upper-cased hex digest. -/
def sign (md5Sum : GoString → GoString) (query : GoString) : GoString :=
  stringsToUpper (md5Sign md5Sum query)

/-- `VerificationSign`. -/
def VerificationSign {F : Type} (md5Sum : GoString → GoString) (fl : Float64Ops F)
    (data : List (StructField F)) (apiSecret signValue : GoString) : Bool × GoString :=
  let urlValues := json2UrlValues fl data
  match QueryUnescape urlValues.Encode with
  | none => (false, [])
  | some query =>
      if query = [] then (false, [])
      else
        let query := query ++ ascii "&key=" ++ apiSecret
        let signResult := sign md5Sum query
        (decide (signValue = signResult), signResult)

/-! ### The canonical query, stated on the record -/

/-- The parts joined by `&`. -/
def joinAmp : List GoString → GoString
  | [] => []
  | [p] => p
  | p :: q :: rest => p ++ 38 :: joinAmp (q :: rest)

/-- The text `key=value` of a pair. -/
def renderPair (p : GoString × GoString) : GoString := p.1 ++ 61 :: p.2

/-- Pairs sorted ascending by key. -/
def sortPairs (ps : List (GoString × GoString)) : List (GoString × GoString) :=
  ps.insertionSort (fun p q => strLe p.1 q.1 = true)

/-- The text of a field's value: the string itself, the formatted number. -/
def valueText {F : Type} (fl : Float64Ops F) (f : StructField F) : GoString :=
  match f.value with
  | FieldValue.String val => val
  | FieldValue.Float64 val => fl.format val
  | FieldValue.Int val => formatInt val
  | FieldValue.Int64 val => formatInt val

/-- The part of `s` before the first occurrence of `sub` (all of `s` when
`sub` does not occur). -/
def cutBefore (s sub : GoString) : GoString :=
  if sub.isPrefixOf s then []
  else
    match s with
    | [] => []
    | c :: t => c :: cutBefore t sub

/-- The claim's reading of which fields are signed: the json tag is neither
`-` nor `sign`, and the value is a string other than "" or a number
other than 0 (`nonZero` is that test on a `float64`). -/
def claimedIncluded {F : Type} (nonZero : F → Bool) (f : StructField F) : Bool :=
  decide (f.tag ≠ ascii "-") && decide (f.tag ≠ ascii "sign") &&
    (match f.value with
      | FieldValue.String val => decide (val ≠ [])
      | FieldValue.Float64 val => nonZero val
      | FieldValue.Int val => decide (val ≠ 0)
      | FieldValue.Int64 val => decide (val ≠ 0))

/-- The claim's reading of the canonical query: the `tag=value` pairs of
exactly the included fields, sorted ascending by key, joined by `&`. -/
def claimedQuery {F : Type} (fl : Float64Ops F) (nonZero : F → Bool)
    (data : List (StructField F)) : GoString :=
  joinAmp ((sortPairs ((data.filter (claimedIncluded nonZero)).map
    (fun f => (f.tag, valueText fl f)))).map renderPair)

/-- Which fields are signed: the json tag is neither `-` nor `sign`, and the
value is a string other than "" or a number greater than 0. -/
def signedIncluded {F : Type} (fl : Float64Ops F) (f : StructField F) : Bool :=
  decide (f.tag ≠ ascii "-") && decide (f.tag ≠ ascii "sign") &&
    (match f.value with
      | FieldValue.String val => decide (val ≠ [])
      | FieldValue.Float64 val => fl.gtZero val
      | FieldValue.Int val => decide (0 < val)
      | FieldValue.Int64 val => decide (0 < val))

/-- The key a field is signed under: its json tag, for an `int64` field the
tag cut before its first `,string`. -/
def signedKey {F : Type} (f : StructField F) : GoString :=
  match f.value with
  | FieldValue.Int64 _ => cutBefore f.tag (ascii ",string")
  | _ => f.tag

/-- Of several pairs with the same key only the last one is kept. -/
def lastWins : List (GoString × GoString) → List (GoString × GoString)
  | [] => []
  | p :: rest => if p.1 ∈ rest.map Prod.fst then lastWins rest else p :: lastWins rest

/-- The signed pairs of a record, sorted ascending by key. -/
def signedPairs {F : Type} (fl : Float64Ops F) (data : List (StructField F)) :
    List (GoString × GoString) :=
  sortPairs (lastWins ((data.filter (signedIncluded fl)).map
    (fun f => (signedKey f, valueText fl f))))

/-- The canonical query of a record: its signed pairs as `key=value`, joined
by `&`. -/
def signedQuery {F : Type} (fl : Float64Ops F) (data : List (StructField F)) : GoString :=
  joinAmp ((signedPairs fl data).map renderPair)

/-- A record with a negative `int` field and a string field. -/
def recordWithNegative : List (StructField Unit) :=
  [{ tag := ascii "a", value := FieldValue.Int (-1) },
   { tag := ascii "b", value := FieldValue.String (ascii "x") }]

/-- A record with two string fields carrying the same json tag. -/
def recordWithSameTag : List (StructField Unit) :=
  [{ tag := ascii "k", value := FieldValue.String (ascii "x") },
   { tag := ascii "k", value := FieldValue.String (ascii "y") }]

/-- A record with a string needing escapes, an `int64` tagged `,string`, an
`int`, and a `sign` field. -/
def sampleRecord : List (StructField Unit) :=
  [{ tag := ascii "name", value := FieldValue.String (ascii "x y+%") },
   { tag := ascii "id,string", value := FieldValue.Int64 12 },
   { tag := ascii "Age", value := FieldValue.Int 7 },
   { tag := ascii "sign", value := FieldValue.String (ascii "ABC") }]

/-- Float operations for records without `float64` fields. -/
def noFloats : Float64Ops Unit := { gtZero := fun _ => false, format := fun _ => [] }

/-- A stand-in digest function (16 zero bytes) for evaluating on examples. -/
def zeroDigest : GoString → GoString := fun _ => List.replicate 16 0

end Sign
/-! ## Properties of the log sink -/

namespace Log

theorem goCopy_replicate (bs : GoString) : goCopy (List.replicate bs.length 0) bs = bs := by
  simp [goCopy]

theorem Write_eq (l : lumberjackWriteSyncer) (bs : GoString) :
    Write l bs =
      if l.logChan.length < l.logChanCap then
        some ({ l with logChan := l.logChan ++ [bs] }, (0, none))
      else none := by
  simp only [Write, goCopy_replicate]

theorem sync_fst (respond : Respond) (l : lumberjackWriteSyncer) :
    (sync respond l).1 =
      { l with Logger := { received := l.Logger.received ++ [l.buf] }, buf := [] } := by
  simp [sync, LumberjackLogger.Write]

theorem runStep_inFlight (respond : Respond) (l l1 : lumberjackWriteSyncer) (e : Event)
    (h : runStep respond l e = some l1) : inFlight l1 = inFlight l := by
  unfold runStep at h
  split at h
  · cases e with
    | tick =>
        simp only at h
        split at h <;> simp only [Option.some.injEq] at h <;> subst h
        · simp [sync_fst, inFlight]
        · rfl
    | recv =>
        simp only at h
        split at h
        · simp at h
        · rename_i bs rest hq
          split at h <;> simp only [Option.some.injEq] at h <;> subst h
          · simp [sync_fst, inFlight, hq]
          · simp [inFlight, hq]
    | closed =>
        simp only at h
        split at h
        · simp only [Option.some.injEq] at h
          subst h
          simp [sync_fst, inFlight]
        · simp at h
  · simp at h

theorem step_inFlight (respond : Respond) (l l1 : lumberjackWriteSyncer) (a : Action)
    (h : step respond l a = some l1) :
    inFlight l1 = inFlight l ++ (writtenRecords [a]).flatten := by
  cases a with
  | write bs =>
      simp only [step, Write_eq] at h
      split at h
      · simp only [Option.map_some', Option.some.injEq] at h
        subst h
        simp [inFlight, writtenRecords]
      · simp at h
  | stop =>
      simp only [step, Stop] at h
      split at h
      · rename_i l2 hs
        split at hs
        · simp at hs
        · simp only [Except.ok.injEq] at hs
          simp only [Option.some.injEq] at h
          subst h
          subst hs
          simp [inFlight, writtenRecords]
      · simp at h
  | worker e =>
      simp only [step] at h
      simp [runStep_inFlight respond l l1 e h, writtenRecords]

theorem exec_cons (respond : Respond) (l l1 : lumberjackWriteSyncer) (a : Action)
    (rest : List Action) (h : step respond l a = some l1) :
    exec respond (a :: rest) l = exec respond rest l1 := by
  simp [exec, h]

theorem writtenRecords_cons (a : Action) (rest : List Action) :
    writtenRecords (a :: rest) = writtenRecords [a] ++ writtenRecords rest := by
  cases a <;> simp [writtenRecords]

theorem exec_inFlight (respond : Respond) (acts : List Action) :
    ∀ (l l1 : lumberjackWriteSyncer), exec respond acts l = some l1 →
      inFlight l1 = inFlight l ++ (writtenRecords acts).flatten := by
  induction acts with
  | nil =>
      intro l l1 h
      simp only [exec, Option.some.injEq] at h
      subst h
      simp [writtenRecords]
  | cons a rest ih =>
      intro l l1 h
      simp only [exec] at h
      split at h
      · rename_i l2 hs
        rw [ih l2 l1 h, step_inFlight respond l l2 a hs, writtenRecords_cons a rest]
        simp
      · simp at h

theorem sync_fst_flushed (respond : Respond) (l : lumberjackWriteSyncer) :
    (sync respond l).1 = flushed l := by
  simp [sync, LumberjackLogger.Write, flushed]

theorem runStep_tick (respond : Respond) (l : lumberjackWriteSyncer) (h : l.running = true) :
    runStep respond l Event.tick = some (if l.buf = [] then l else flushed l) := by
  cases hb : l.buf with
  | nil => simp [runStep, h, hb]
  | cons b t => simp [runStep, h, hb, sync_fst_flushed]

theorem runStep_recv (respond : Respond) (l : lumberjackWriteSyncer) (bs : GoString)
    (rest : List GoString) (h : l.running = true) (hq : l.logChan = bs :: rest) :
    runStep respond l Event.recv =
      some (if l.maxSize < (l.buf ++ bs).length
        then flushed { l with logChan := rest, buf := l.buf ++ bs }
        else { l with logChan := rest, buf := l.buf ++ bs }) := by
  simp only [runStep, h, hq, if_true, sync_fst_flushed, gt_iff_lt]
  split <;> rfl

theorem runStep_closed (respond : Respond) (l : lumberjackWriteSyncer) (h : l.running = true)
    (hc : l.closeChan = true) :
    runStep respond l Event.closed = some { flushed l with running := false } := by
  simp [runStep, h, hc, sync_fst_flushed]

theorem runStep_exited (respond : Respond) (l : lumberjackWriteSyncer) (h : l.running = false)
    (e : Event) : runStep respond l e = none := by
  simp [runStep, h]

theorem step_ExitedClean (respond : Respond) (l l1 : lumberjackWriteSyncer) (a : Action)
    (h : step respond l a = some l1) (hl : ExitedClean l) : ExitedClean l1 := by
  cases a with
  | write bs =>
      simp only [step, Write_eq] at h
      split at h
      · simp only [Option.map_some', Option.some.injEq] at h
        subst h
        exact hl
      · simp at h
  | stop =>
      simp only [step, Stop] at h
      split at h
      · rename_i l2 hs
        split at hs
        · simp at hs
        · simp only [Except.ok.injEq] at hs
          simp only [Option.some.injEq] at h
          subst h
          subst hs
          intro hr
          exact ⟨(hl hr).1, rfl⟩
      · simp at h
  | worker e =>
      simp only [step] at h
      cases hr : l.running with
      | false => simp [runStep_exited respond l hr] at h
      | true =>
          cases e with
          | tick =>
              rw [runStep_tick respond l hr] at h
              simp only [Option.some.injEq] at h
              subst h
              intro hr1
              split at hr1
              · simp [hr] at hr1
              · simp [flushed, hr] at hr1
          | recv =>
              cases hq : l.logChan with
              | nil => simp [runStep, hr, hq] at h
              | cons bs rest =>
                  rw [runStep_recv respond l bs rest hr hq] at h
                  simp only [Option.some.injEq] at h
                  subst h
                  intro hr1
                  split at hr1
                  · simp [flushed, hr] at hr1
                  · simp [hr] at hr1
          | closed =>
              cases hc : l.closeChan with
              | false => simp [runStep, hr, hc] at h
              | true =>
                  rw [runStep_closed respond l hr hc] at h
                  simp only [Option.some.injEq] at h
                  subst h
                  intro _
                  exact ⟨rfl, hc⟩

theorem exec_ExitedClean (respond : Respond) (acts : List Action) :
    ∀ (l l1 : lumberjackWriteSyncer), exec respond acts l = some l1 →
      ExitedClean l → ExitedClean l1 := by
  induction acts with
  | nil =>
      intro l l1 h hl
      simp only [exec, Option.some.injEq] at h
      subst h
      exact hl
  | cons a rest ih =>
      intro l l1 h hl
      simp only [exec] at h
      split at h
      · rename_i l2 hs
        exact ih l2 l1 h (step_ExitedClean respond l l2 a hs hl)
      · simp at h

theorem newSyncerWith_ExitedClean (lg : LumberjackLogger) (cap maxSize : Nat) :
    ExitedClean (newSyncerWith lg cap maxSize) := by
  intro h
  simp [newSyncerWith] at h

/-- C1: in every run of a fresh sink (any interleaving of accepted `Write`
calls, `Stop` and worker steps), the bytes handed to the writer over all
flushes, then the buffer, then the queued records, are the written records
concatenated in call order; with an empty queue and buffer the writer has
seen exactly that concatenation. -/
theorem write_order_preserved (respond : Respond) (cap maxSize : Nat) (acts : List Action)
    (l : lumberjackWriteSyncer)
    (h : exec respond acts (newSyncerWith freshLogger cap maxSize) = some l) :
    l.Logger.received.flatten ++ l.buf ++ l.logChan.flatten = (writtenRecords acts).flatten ∧
      (l.logChan = [] → l.buf = [] →
        l.Logger.received.flatten = (writtenRecords acts).flatten) := by
  have key := exec_inFlight respond acts _ l h
  simp only [inFlight, newSyncerWith, freshLogger, List.flatten_nil, List.append_nil,
    List.nil_append] at key
  refine ⟨key, ?_⟩
  intro hq hb
  rw [← key, hq, hb]
  simp

/-- C1, at a concrete run: two records written, received and flushed by a
tick, a third still queued. -/
theorem write_order_preserved_witness :
    (ascii "ab" ++ ascii "cd" ++ [] ++ [ascii "ef"].flatten
        = (writtenRecords [Action.write (ascii "ab"), Action.worker Event.recv,
            Action.write (ascii "cd"), Action.worker Event.recv, Action.worker Event.tick,
            Action.write (ascii "ef")]).flatten) :=
  (write_order_preserved acceptAll 5000 1024
    [Action.write (ascii "ab"), Action.worker Event.recv,
      Action.write (ascii "cd"), Action.worker Event.recv, Action.worker Event.tick,
      Action.write (ascii "ef")]
    { Logger := { received := [ascii "ab" ++ ascii "cd"] }, buf := [], logChan := [ascii "ef"],
      logChanCap := 5000, closeChan := false, maxSize := 1024, running := true }
    (by decide)).1

/-- C2: `Write` of the one-byte record "a" on a new sink is accepted (the
copy is enqueued) and returns a nil error, but the count it returns is 0,
not the length 1 of the record. -/
theorem Write_returns_zero_count :
    (Write (newLumberjackWriteSyncer freshLogger) (ascii "a")).map
        (fun r => (r.1.logChan, r.2.1, r.2.2)) = some ([ascii "a"], 0, none) ∧
      (ascii "a").length = 1 := by
  decide

/-- C3 fails as stated: after `Write "a"`, `Stop`, and the worker handling
the close signal, the worker has exited, the writer has received one empty
batch and no byte of the accepted record, which is still in the queue. -/
theorem stop_leaves_queued_record :
    (exec acceptAll stopBeforeReceive (newLumberjackWriteSyncer freshLogger)).map
        (fun l => (l.running, l.Logger.received, l.logChan))
      = some (false, [[]], [ascii "a"]) ∧
    writtenRecords stopBeforeReceive = [ascii "a"] := by
  decide

/-- C3 as amended: in every run of a fresh sink, once the worker has exited
(it handled the close signal) no worker step is possible any more, the
buffer is empty, and the bytes the writer received over all flushes,
followed by the records still queued, are the accepted records in call
order; the writer has received the bytes of all accepted records exactly
when the records still queued hold no byte, in particular when the queue
is empty. -/
theorem stopped_sink_delivery (respond : Respond) (cap maxSize : Nat) (acts : List Action)
    (l : lumberjackWriteSyncer)
    (h : exec respond acts (newSyncerWith freshLogger cap maxSize) = some l)
    (hstop : l.running = false) :
    (∀ e, runStep respond l e = none) ∧ l.closeChan = true ∧ l.buf = [] ∧
      l.Logger.received.flatten ++ l.logChan.flatten = (writtenRecords acts).flatten ∧
      (l.Logger.received.flatten = (writtenRecords acts).flatten ↔ l.logChan.flatten = []) ∧
      (l.logChan = [] → l.Logger.received.flatten = (writtenRecords acts).flatten) := by
  have hclean := exec_ExitedClean respond acts _ l h
    (newSyncerWith_ExitedClean freshLogger cap maxSize) hstop
  have key := exec_inFlight respond acts _ l h
  simp only [inFlight, newSyncerWith, freshLogger, List.flatten_nil, List.append_nil,
    List.nil_append, hclean.1] at key
  refine ⟨runStep_exited respond l hstop, hclean.2, hclean.1, key, ?_, ?_⟩
  · rw [← key]
    constructor
    · intro heq
      exact List.self_eq_append_right.mp heq
    · intro hq
      rw [hq, List.append_nil]
  · intro hq
    rw [← key, hq]
    simp

/-- C3 as amended, at a concrete run: the record is received before the
close signal is handled, so the final flush delivers it. -/
theorem stopped_sink_delivery_witness :
    [ascii "a"].flatten ++ ([] : List GoString).flatten
      = (writtenRecords [Action.write (ascii "a"), Action.stop, Action.worker Event.recv,
          Action.worker Event.closed]).flatten :=
  (stopped_sink_delivery acceptAll 5000 1024
    [Action.write (ascii "a"), Action.stop, Action.worker Event.recv,
      Action.worker Event.closed]
    { Logger := { received := [ascii "a"] }, buf := [], logChan := [],
      logChanCap := 5000, closeChan := true, maxSize := 1024, running := false }
    (by decide) rfl).2.2.2.1

/-- C4 fails as stated: on a sink whose worker has exited after `Stop`,
`Write "a"` returns a nil error and the record is appended to the queue. -/
theorem Write_after_stop_enqueues :
    stoppedSink = some exitedSink ∧
    (exitedSink.running, exitedSink.closeChan, exitedSink.logChan) = (false, true, []) ∧
    (Write exitedSink (ascii "a")).map (fun r => (r.1.logChan, r.2.2))
      = some ([ascii "a"], none) := by
  decide

/-- C4 as amended: on a sink that was stopped and whose worker has exited,
`Write bs` does not fail: with room in the queue it appends a copy of `bs`
to the queue, changes nothing else and returns a nil error; with a full
queue it blocks. -/
theorem Write_after_stop (l : lumberjackWriteSyncer) (bs : GoString)
    (_hclosed : l.closeChan = true) (_hexited : l.running = false) :
    (l.logChan.length < l.logChanCap →
      ∃ n, Write l bs = some ({ l with logChan := l.logChan ++ [bs] }, (n, none))) ∧
    (l.logChanCap ≤ l.logChan.length → Write l bs = none) := by
  rw [Write_eq]
  constructor
  · intro hroom
    exact ⟨0, by simp [hroom]⟩
  · intro hfull
    simp [Nat.not_lt.mpr hfull]

/-- C4 as amended, at the sink of a new logger after `Stop` and worker exit. -/
theorem Write_after_stop_witness :
    ∃ n, Write exitedSink (ascii "a")
      = some ({ exitedSink with logChan := exitedSink.logChan ++ [ascii "a"] }, (n, none)) :=
  (Write_after_stop exitedSink (ascii "a") rfl rfl).1 (by decide)

theorem step_buf_bounded (respond : Respond) (l l1 : lumberjackWriteSyncer) (a : Action)
    (h : step respond l a = some l1) (hl : l.buf.length ≤ l.maxSize) :
    l1.buf.length ≤ l1.maxSize ∧ l1.maxSize = l.maxSize := by
  cases a with
  | write bs =>
      simp only [step, Write_eq] at h
      split at h
      · simp only [Option.map_some', Option.some.injEq] at h
        subst h
        exact ⟨hl, rfl⟩
      · simp at h
  | stop =>
      simp only [step, Stop] at h
      split at h
      · rename_i l2 hs
        split at hs
        · simp at hs
        · simp only [Except.ok.injEq] at hs
          simp only [Option.some.injEq] at h
          subst h
          subst hs
          exact ⟨hl, rfl⟩
      · simp at h
  | worker e =>
      simp only [step] at h
      cases hr : l.running with
      | false => simp [runStep_exited respond l hr] at h
      | true =>
          cases e with
          | tick =>
              rw [runStep_tick respond l hr] at h
              simp only [Option.some.injEq] at h
              subst h
              split
              · exact ⟨hl, rfl⟩
              · simp [flushed]
          | recv =>
              cases hq : l.logChan with
              | nil => simp [runStep, hr, hq] at h
              | cons bs rest =>
                  rw [runStep_recv respond l bs rest hr hq] at h
                  simp only [Option.some.injEq] at h
                  subst h
                  split
                  · simp [flushed]
                  · rename_i hle
                    exact ⟨Nat.not_lt.mp hle, rfl⟩
          | closed =>
              cases hc : l.closeChan with
              | false => simp [runStep, hr, hc] at h
              | true =>
                  rw [runStep_closed respond l hr hc] at h
                  simp only [Option.some.injEq] at h
                  subst h
                  simp [flushed]

theorem exec_buf_bounded (respond : Respond) (acts : List Action) :
    ∀ (l l1 : lumberjackWriteSyncer), exec respond acts l = some l1 →
      l.buf.length ≤ l.maxSize → l1.buf.length ≤ l1.maxSize ∧ l1.maxSize = l.maxSize := by
  induction acts with
  | nil =>
      intro l l1 h hl
      simp only [exec, Option.some.injEq] at h
      subst h
      exact ⟨hl, rfl⟩
  | cons a rest ih =>
      intro l l1 h hl
      simp only [exec] at h
      split at h
      · rename_i l2 hs
        have h2 := step_buf_bounded respond l l2 a hs hl
        have h3 := ih l2 l1 h h2.1
        exact ⟨h3.1, h3.2.trans h2.2⟩
      · simp at h

/-- C5: from any sink with an empty buffer, after every run (any sequence of
worker events, `Write` and `Stop`) the buffer holds at most `maxSize`
bytes, the threshold itself never changes, and in the state reached a
received record that takes the buffer above `maxSize` is flushed, together
with the whole buffer, in the very step that appends it. -/
theorem buffer_bounded_by_threshold (respond : Respond) (l0 l : lumberjackWriteSyncer)
    (acts : List Action) (hempty : l0.buf = [])
    (h : exec respond acts l0 = some l) :
    l.buf.length ≤ l.maxSize ∧ l.maxSize = l0.maxSize ∧
      (∀ bs rest, l.running = true → l.logChan = bs :: rest →
        l.maxSize < (l.buf ++ bs).length →
        runStep respond l Event.recv =
          some { l with logChan := rest, buf := [],
                        Logger := { received := l.Logger.received ++ [l.buf ++ bs] } }) := by
  have hb := exec_buf_bounded respond acts l0 l h (by simp [hempty])
  refine ⟨hb.1, hb.2, ?_⟩
  intro bs rest hr hq hbig
  rw [runStep_recv respond l bs rest hr hq, if_pos hbig]
  rfl

/-- C5 at a concrete run with threshold 4: the second record takes the
buffer to 6 bytes and is flushed at once; one byte is buffered at the end. -/
theorem buffer_bounded_by_threshold_witness :
    (ascii "g").length ≤ 4 :=
  (buffer_bounded_by_threshold acceptAll (newSyncerWith freshLogger 5000 4)
    { Logger := { received := [ascii "abcdef"] }, buf := ascii "g", logChan := [],
      logChanCap := 5000, closeChan := false, maxSize := 4, running := true }
    smallThresholdRun rfl (by decide)).1

/-- C6 fails as stated: with threshold 10, after "ab", "cd", "efghij" are
written and received, the writer has received no flush at all and the ten
bytes are still in the buffer. -/
theorem ten_bytes_not_flushed_at_threshold_ten :
    (exec acceptAll threeRecords (newSyncerWith freshLogger 5000 10)).map
        (fun l => (l.Logger.received, l.buf))
      = some ([], ascii "abcdefghij") ∧
    (ascii "abcdefghij").length = 10 := by
  decide

/-- C6 as amended: with threshold 10 and an empty buffer, after "ab", "cd",
"efghij" are written and received in that order (no tick, no close) the
writer has received no flush and the buffer holds "abcdefghij", since 10
bytes do not exceed the threshold 10; with threshold 9 the writer has
received exactly one flush, "abcdefghij", and the buffer is empty. -/
theorem ten_bytes_flush_needs_lower_threshold :
    (exec acceptAll threeRecords (newSyncerWith freshLogger 5000 10)).map
        (fun l => (l.Logger.received, l.buf, l.logChan))
      = some ([], ascii "abcdefghij", []) ∧
    (exec acceptAll threeRecordsAlternating (newSyncerWith freshLogger 5000 10)).map
        (fun l => (l.Logger.received, l.buf, l.logChan))
      = some ([], ascii "abcdefghij", []) ∧
    (exec acceptAll threeRecords (newSyncerWith freshLogger 5000 9)).map
        (fun l => (l.Logger.received, l.buf, l.logChan))
      = some ([ascii "abcdefghij"], [], []) ∧
    (exec acceptAll threeRecordsAlternating (newSyncerWith freshLogger 5000 9)).map
        (fun l => (l.Logger.received, l.buf, l.logChan))
      = some ([ascii "abcdefghij"], [], []) := by
  refine ⟨?_, ?_, ?_, ?_⟩ <;> rfl

/-- C7: whatever the buffer holds and whatever the writer answers, `sync`
hands the whole buffer to the writer as one batch (one `Write` call),
leaves the buffer empty and everything else unchanged, and returns the
error the writer returned (nil when it returned nil). -/
theorem sync_writes_all_and_resets (respond : Respond) (l : lumberjackWriteSyncer) :
    (sync respond l).1 =
        { l with Logger := { received := l.Logger.received ++ [l.buf] }, buf := [] } ∧
      (sync respond l).1.buf = [] ∧
      (sync respond l).2 = (respond l.Logger.received l.buf).2 := by
  refine ⟨by simp [sync, LumberjackLogger.Write], by simp [sync], ?_⟩
  simp only [sync, LumberjackLogger.Write]
  cases (respond l.Logger.received l.buf).2 <;> rfl

theorem step_exited_received (respond : Respond) (l l1 : lumberjackWriteSyncer) (a : Action)
    (h : step respond l a = some l1) (hl : l.running = false) :
    l1.running = false ∧ l1.Logger.received = l.Logger.received := by
  cases a with
  | write bs =>
      simp only [step, Write_eq] at h
      split at h
      · simp only [Option.map_some', Option.some.injEq] at h
        subst h
        exact ⟨hl, rfl⟩
      · simp at h
  | stop =>
      simp only [step, Stop] at h
      split at h
      · rename_i l2 hs
        split at hs
        · simp at hs
        · simp only [Except.ok.injEq] at hs
          simp only [Option.some.injEq] at h
          subst h
          subst hs
          exact ⟨hl, rfl⟩
      · simp at h
  | worker e =>
      simp only [step] at h
      simp [runStep_exited respond l hl] at h

theorem exec_exited_received (respond : Respond) (acts : List Action) :
    ∀ (l l1 : lumberjackWriteSyncer), exec respond acts l = some l1 →
      l.running = false → l1.running = false ∧ l1.Logger.received = l.Logger.received := by
  induction acts with
  | nil =>
      intro l l1 h hl
      simp only [exec, Option.some.injEq] at h
      subst h
      exact ⟨hl, rfl⟩
  | cons a rest ih =>
      intro l l1 h hl
      simp only [exec] at h
      split at h
      · rename_i l2 hs
        have h2 := step_exited_received respond l l2 a hs hl
        have h3 := ih l2 l1 h h2.1
        exact ⟨h3.1, h3.2.trans h2.2⟩
      · simp at h

theorem step_closeChan (respond : Respond) (l l1 : lumberjackWriteSyncer) (a : Action)
    (h : step respond l a = some l1) (hc : l.closeChan = true) : l1.closeChan = true := by
  cases a with
  | write bs =>
      simp only [step, Write_eq] at h
      split at h
      · simp only [Option.map_some', Option.some.injEq] at h
        subst h
        exact hc
      · simp at h
  | stop =>
      simp [step, Stop, hc] at h
  | worker e =>
      simp only [step] at h
      cases hr : l.running with
      | false => simp [runStep_exited respond l hr] at h
      | true =>
          cases e with
          | tick =>
              rw [runStep_tick respond l hr] at h
              simp only [Option.some.injEq] at h
              subst h
              split
              · exact hc
              · exact hc
          | recv =>
              cases hq : l.logChan with
              | nil => simp [runStep, hr, hq] at h
              | cons bs rest =>
                  rw [runStep_recv respond l bs rest hr hq] at h
                  simp only [Option.some.injEq] at h
                  subst h
                  split
                  · exact hc
                  · exact hc
          | closed =>
              rw [runStep_closed respond l hr hc] at h
              simp only [Option.some.injEq] at h
              subst h
              exact hc

theorem exec_closeChan (respond : Respond) (acts : List Action) :
    ∀ (l l1 : lumberjackWriteSyncer), exec respond acts l = some l1 →
      l.closeChan = true → l1.closeChan = true := by
  induction acts with
  | nil =>
      intro l l1 h hc
      simp only [exec, Option.some.injEq] at h
      subst h
      exact hc
  | cons a rest ih =>
      intro l l1 h hc
      simp only [exec] at h
      split at h
      · rename_i l2 hs
        exact ih l2 l1 h (step_closeChan respond l l2 a hs hc)
      · simp at h

/-- One action, seen from the writer: the batches it adds (`extra`), the
records it takes off the queue (`taken`), and how the two relate. -/
theorem step_since (respond : Respond) (l l1 : lumberjackWriteSyncer) (a : Action)
    (h : step respond l a = some l1) :
    ∃ extra taken, l1.Logger.received = l.Logger.received ++ extra ∧
      l.logChan ++ writtenRecords [a] = taken ++ l1.logChan ∧
      extra.flatten ++ l1.buf = l.buf ++ taken.flatten ∧
      (l.running = true → l1.running = false → extra ≠ []) := by
  cases a with
  | write bs =>
      simp only [step, Write_eq] at h
      split at h
      · simp only [Option.map_some', Option.some.injEq] at h
        subst h
        refine ⟨[], [], by simp, by simp [writtenRecords], by simp, ?_⟩
        intro h1 h2
        simp [h1] at h2
      · simp at h
  | stop =>
      simp only [step, Stop] at h
      split at h
      · rename_i l2 hs
        split at hs
        · simp at hs
        · simp only [Except.ok.injEq] at hs
          simp only [Option.some.injEq] at h
          subst h
          subst hs
          refine ⟨[], [], by simp, by simp [writtenRecords], by simp, ?_⟩
          intro h1 h2
          simp [h1] at h2
      · simp at h
  | worker e =>
      simp only [step] at h
      cases hr : l.running with
      | false => simp [runStep_exited respond l hr] at h
      | true =>
          cases e with
          | tick =>
              rw [runStep_tick respond l hr] at h
              simp only [Option.some.injEq] at h
              subst h
              by_cases hb : l.buf = []
              · refine ⟨[], [], by simp [hb], by simp [writtenRecords, hb], by simp [hb], ?_⟩
                intro _ h2
                simp [hb, hr] at h2
              · refine ⟨[l.buf], [], by simp [hb, flushed], by simp [writtenRecords, hb, flushed],
                  by simp [hb, flushed], ?_⟩
                intro _ _
                simp
          | recv =>
              cases hq : l.logChan with
              | nil => simp [runStep, hr, hq] at h
              | cons bs rest =>
                  rw [runStep_recv respond l bs rest hr hq] at h
                  simp only [Option.some.injEq] at h
                  subst h
                  by_cases hbig : l.maxSize < (l.buf ++ bs).length
                  · simp only [if_pos hbig]
                    refine ⟨[l.buf ++ bs], [bs], by simp [flushed],
                      by simp [writtenRecords, flushed], by simp [flushed], ?_⟩
                    intro _ _
                    simp
                  · simp only [if_neg hbig]
                    refine ⟨[], [bs], by simp, by simp [writtenRecords], by simp, ?_⟩
                    intro _ h2
                    simp [hr] at h2
          | closed =>
              cases hc : l.closeChan with
              | false => simp [runStep, hr, hc] at h
              | true =>
                  rw [runStep_closed respond l hr hc] at h
                  simp only [Option.some.injEq] at h
                  subst h
                  refine ⟨[l.buf], [], by simp [flushed], by simp [writtenRecords, flushed],
                    by simp [flushed], ?_⟩
                  intro _ _
                  simp

/-- A run, seen from the writer: the batches added since its start hold
the bytes that were buffered at the start followed by the records taken
off the queue since, less what is still buffered; a run in which the
worker exits adds at least one batch. -/
theorem exec_since (respond : Respond) (acts : List Action) :
    ∀ (l s : lumberjackWriteSyncer), exec respond acts l = some s →
      ∃ extra taken, s.Logger.received = l.Logger.received ++ extra ∧
        l.logChan ++ writtenRecords acts = taken ++ s.logChan ∧
        extra.flatten ++ s.buf = l.buf ++ taken.flatten ∧
        (l.running = true → s.running = false → extra ≠ []) := by
  induction acts with
  | nil =>
      intro l s h
      simp only [exec, Option.some.injEq] at h
      subst h
      refine ⟨[], [], by simp, by simp [writtenRecords], by simp, ?_⟩
      intro h1 h2
      simp [h1] at h2
  | cons a rest ih =>
      intro l s h
      simp only [exec] at h
      split at h
      · rename_i l1 hs
        obtain ⟨e1, t1, hr1, hq1, hb1, hn1⟩ := step_since respond l l1 a hs
        obtain ⟨e2, t2, hr2, hq2, hb2, hn2⟩ := ih l1 s h
        refine ⟨e1 ++ e2, t1 ++ t2, ?_, ?_, ?_, ?_⟩
        · rw [hr2, hr1, List.append_assoc]
        · rw [writtenRecords_cons a rest, ← List.append_assoc, hq1, List.append_assoc, hq2,
            List.append_assoc]
        · rw [List.flatten_append, List.append_assoc, hb2, ← List.append_assoc, hb1,
            List.flatten_append, List.append_assoc]
        · intro hl hsr
          cases hr : l1.running with
          | false =>
              have := hn1 hl hr
              simp [this]
          | true =>
              have := hn2 hr hsr
              simp [this]
      · simp at h

/-- C8 fails as stated: on a running sink holding "xyz", `Stop`, a tick and
then the close case give two flushes after `Stop` ("xyz", then an empty
one); with a record "Q" queued, `Stop`, a receive and then the close case
give one flush holding "xyzQ", not the buffered "xyz". -/
theorem stop_then_other_case_first :
    (exec acceptAll [Action.stop, Action.worker Event.tick, Action.worker Event.closed]
        sinkHoldingXyz).map (fun s => (s.running, s.Logger.received))
      = some (false, [ascii "ab", ascii "xyz", []]) ∧
    (exec acceptAll [Action.stop, Action.worker Event.recv, Action.worker Event.closed]
        sinkHoldingXyzQueued).map (fun s => (s.running, s.Logger.received))
      = some (false, [ascii "ab", ascii "xyzQ"]) ∧
    (sinkHoldingXyz.buf, sinkHoldingXyzQueued.buf, sinkHoldingXyzQueued.logChan)
      = (ascii "xyz", ascii "xyz", [ascii "Q"]) := by
  decide

/-- C8 as amended: on a running sink that was not stopped and whose buffer
is not empty, `Stop` succeeds and closes the close channel. When the
worker's next step is the close case, that step makes exactly one more
flush, holding exactly the buffered bytes. In any state in which a running
worker takes the close case, it makes one flush holding the buffer of that
moment. After any run that follows `Stop`, another `Stop` panics; and once
the worker has exited, no worker step is possible, the buffer is empty, no
later run hands anything more to the writer, and the flushes made since
`Stop` (at least one) hold, concatenated, exactly the bytes buffered at
`Stop` followed by the records the worker took off the queue since. -/
theorem stop_final_flush_then_exits (respond : Respond) (l : lumberjackWriteSyncer)
    (hrun : l.running = true) (hopen : l.closeChan = false) (_hbuf : l.buf ≠ []) :
    Stop l = Except.ok { l with closeChan := true } ∧
    runStep respond { l with closeChan := true } Event.closed =
      some { l with closeChan := true, running := false, buf := [],
                    Logger := { received := l.Logger.received ++ [l.buf] } } ∧
    (∀ s : lumberjackWriteSyncer, s.running = true → s.closeChan = true →
      runStep respond s Event.closed =
        some { s with running := false, buf := [],
                      Logger := { received := s.Logger.received ++ [s.buf] } }) ∧
    (∀ acts s, exec respond acts { l with closeChan := true } = some s →
      Stop s = Except.error "close of closed channel" ∧
      (s.running = false →
        (∀ e, runStep respond s e = none) ∧ s.buf = [] ∧
        (∀ acts2 s2, exec respond acts2 s = some s2 →
          s2.running = false ∧ s2.Logger.received = s.Logger.received) ∧
        ∃ extra taken, extra ≠ [] ∧
          s.Logger.received = l.Logger.received ++ extra ∧
          l.logChan ++ writtenRecords acts = taken ++ s.logChan ∧
          extra.flatten = l.buf ++ taken.flatten)) := by
  have hstep : runStep respond { l with closeChan := true } Event.closed =
      some { l with closeChan := true, running := false, buf := [],
                    Logger := { received := l.Logger.received ++ [l.buf] } } := by
    rw [runStep_closed respond { l with closeChan := true } hrun rfl]
    rfl
  refine ⟨by simp [Stop, hopen], hstep, ?_, ?_⟩
  · intro s hs hc
    rw [runStep_closed respond s hs hc]
    rfl
  · intro acts s hexec
    have hclosed : s.closeChan = true := exec_closeChan respond acts _ s hexec rfl
    refine ⟨by simp [Stop, hclosed], ?_⟩
    intro hexit
    have hclean : ExitedClean { l with closeChan := true } := by
      intro hr
      simp [hrun] at hr
    have hbuf := (exec_ExitedClean respond acts _ s hexec hclean hexit).1
    obtain ⟨extra, taken, hr1, hq1, hb1, hn1⟩ := exec_since respond acts _ s hexec
    refine ⟨runStep_exited respond s hexit, hbuf, ?_, extra, taken, hn1 hrun hexit, hr1, hq1, ?_⟩
    · intro acts2 s2 h2
      exact exec_exited_received respond acts2 s s2 h2 hexit
    · rw [hbuf, List.append_nil] at hb1
      exact hb1

/-- C8 as amended, at a running sink with "xyz" buffered, the writer
failing. -/
theorem stop_final_flush_then_exits_witness :
    runStep rejectAll { sinkHoldingXyz with closeChan := true } Event.closed =
      some { sinkHoldingXyz with
             closeChan := true, running := false, buf := [],
             Logger := { received := [ascii "ab"] ++ [ascii "xyz"] } } :=
  (stop_final_flush_then_exits rejectAll sinkHoldingXyz rfl rfl (by decide)).2.1

/-- C9: on a running worker a tick with a non-empty buffer hands exactly the
buffered bytes to the writer as one batch and empties the buffer, and a
tick with an empty buffer changes nothing (no write call). After one
3-byte record is written and received on a new sink, any positive number
of ticks leaves the writer with exactly one batch, that record. -/
theorem tick_flushes_iff_nonempty (respond : Respond) (l : lumberjackWriteSyncer)
    (hrun : l.running = true) (r : GoString) (hr : r.length = 3) (n : Nat) :
    (l.buf ≠ [] → runStep respond l Event.tick =
      some { l with Logger := { received := l.Logger.received ++ [l.buf] }, buf := [] }) ∧
    (l.buf = [] → runStep respond l Event.tick = some l) ∧
    (exec respond
        (Action.write r :: Action.worker Event.recv ::
          List.replicate (n + 1) (Action.worker Event.tick))
        (newLumberjackWriteSyncer freshLogger)).map (fun s => (s.Logger.received, s.buf))
      = some ([r], []) := by
  refine ⟨?_, ?_, ?_⟩
  · intro hb
    rw [runStep_tick respond l hrun, if_neg hb]
    rfl
  · intro hb
    rw [runStep_tick respond l hrun, if_pos hb]
  · have hticks : ∀ (k : Nat) (s : lumberjackWriteSyncer), s.running = true → s.buf = [] →
        exec respond (List.replicate k (Action.worker Event.tick)) s = some s := by
      intro k
      induction k with
      | zero => intro s _ _; rfl
      | succ k ih =>
          intro s hs hb
          simp only [List.replicate_succ, exec, step]
          rw [runStep_tick respond s hs, if_pos hb]
          exact ih s hs hb
    have hne : r ≠ [] := by
      intro h0
      simp [h0] at hr
    have hbig : ¬ (1024 < r.length) := by omega
    have hwrite : step respond (newLumberjackWriteSyncer freshLogger) (Action.write r)
        = some { Logger := freshLogger, buf := [], logChan := [r], logChanCap := 5000,
                 closeChan := false, maxSize := 1024, running := true } := by
      simp [step, Write_eq, newLumberjackWriteSyncer, newSyncerWith]
    have hrecv : step respond
          { Logger := freshLogger, buf := [], logChan := [r], logChanCap := 5000,
            closeChan := false, maxSize := 1024, running := true }
          (Action.worker Event.recv)
        = some { Logger := freshLogger, buf := r, logChan := [], logChanCap := 5000,
                 closeChan := false, maxSize := 1024, running := true } := by
      simp only [step]
      rw [runStep_recv respond _ r [] rfl rfl]
      simp [hbig]
    have htick : step respond
          { Logger := freshLogger, buf := r, logChan := [], logChanCap := 5000,
            closeChan := false, maxSize := 1024, running := true }
          (Action.worker Event.tick)
        = some { Logger := { received := [r] }, buf := [], logChan := [], logChanCap := 5000,
                 closeChan := false, maxSize := 1024, running := true } := by
      simp only [step]
      rw [runStep_tick respond _ rfl]
      simp [hne, flushed, freshLogger]
    rw [exec_cons respond _ _ _ _ hwrite, exec_cons respond _ _ _ _ hrecv,
      List.replicate_succ, exec_cons respond _ _ _ _ htick, hticks n _ rfl rfl]
    rfl

/-- C9 at the record "abc", two ticks, a running sink holding "xyz". -/
theorem tick_flushes_iff_nonempty_witness :
    (exec acceptAll
        (Action.write (ascii "abc") :: Action.worker Event.recv ::
          List.replicate (1 + 1) (Action.worker Event.tick))
        (newLumberjackWriteSyncer freshLogger)).map (fun s => (s.Logger.received, s.buf))
      = some ([ascii "abc"], []) :=
  (tick_flushes_iff_nonempty acceptAll sinkHoldingXyz rfl (ascii "abc") (by decide) 1).2.2

end Log

/-! ## Properties of the signing helper -/

namespace Sign

/-! ### Bytes -/

set_option maxRecDepth 100000 in
theorem byte_unescaped (c : Byte) (h : shouldEscape c = false) : c.val ≠ 37 ∧ c.val ≠ 43 := by
  revert c
  decide

set_option maxRecDepth 100000 in
theorem byte_escaped (c : Byte) (h : shouldEscape c = true) :
    ishex (upperhex (c.val >>> 4)) = true ∧ ishex (upperhex (c.val &&& 15)) = true ∧
      (Fin.ofNat ((unhex (upperhex (c.val >>> 4)) <<< 4) ||| unhex (upperhex (c.val &&& 15))) : Byte)
        = c := by
  revert c
  decide

/-! ### The order on strings -/

theorem strLe_refl (a : GoString) : strLe a a = true := by
  induction a with
  | nil => rfl
  | cons x s ih => simp [strLe, ih]

theorem strLe_total (a b : GoString) : strLe a b = true ∨ strLe b a = true := by
  induction a generalizing b with
  | nil => left; rfl
  | cons x s ih =>
      cases b with
      | nil => right; rfl
      | cons y t =>
          rcases lt_trichotomy x y with h | h | h
          · left; simp [strLe, h]
          · subst h
            simpa [strLe] using ih t
          · right; simp [strLe, h]

theorem strLe_trans (a b c : GoString) (hab : strLe a b = true) (hbc : strLe b c = true) :
    strLe a c = true := by
  induction a generalizing b c with
  | nil => rfl
  | cons x s ih =>
      cases b with
      | nil => simp [strLe] at hab
      | cons y t =>
          cases c with
          | nil => simp [strLe] at hbc
          | cons z u =>
              simp only [strLe] at hab hbc ⊢
              rcases lt_trichotomy x y with hxy | hxy | hxy
              · rcases lt_trichotomy y z with hyz | hyz | hyz
                · simp [lt_trans hxy hyz]
                · subst hyz; simp [hxy]
                · simp [hyz, not_lt_of_gt hyz] at hbc
              · subst hxy
                rcases lt_trichotomy x z with hyz | hyz | hyz
                · simp [hyz]
                · subst hyz
                  simp only [lt_irrefl, if_false] at hab hbc ⊢
                  exact ih t u hab hbc
                · simp [hyz, not_lt_of_gt hyz] at hbc
              · simp [hxy, not_lt_of_gt hxy] at hab

theorem strLe_antisymm (a b : GoString) (hab : strLe a b = true) (hba : strLe b a = true) :
    a = b := by
  induction a generalizing b with
  | nil =>
      cases b with
      | nil => rfl
      | cons y t => simp [strLe] at hba
  | cons x s ih =>
      cases b with
      | nil => simp [strLe] at hab
      | cons y t =>
          simp only [strLe] at hab hba
          rcases lt_trichotomy x y with h | h | h
          · simp [h, not_lt_of_gt h] at hba
          · subst h
            simp only [lt_irrefl, if_false] at hab hba
            rw [ih t hab hba]
          · simp [h, not_lt_of_gt h] at hab

theorem sortStrings_eq_of_perm (l1 l2 : List GoString) (h : l1.Perm l2) :
    sortStrings l1 = sortStrings l2 := by
  haveI : IsTotal GoString (fun a b => strLe a b = true) := ⟨strLe_total⟩
  haveI : IsTrans GoString (fun a b => strLe a b = true) := ⟨strLe_trans⟩
  haveI : IsAntisymm GoString (fun a b => strLe a b = true) := ⟨strLe_antisymm⟩
  unfold sortStrings
  apply List.eq_of_perm_of_sorted _ (List.sorted_insertionSort _ l1)
    (List.sorted_insertionSort _ l2)
  exact ((List.perm_insertionSort _ l1).trans h).trans (List.perm_insertionSort _ l2).symm

theorem map_fst_orderedInsert (p : GoString × GoString) (l : List (GoString × GoString)) :
    (List.orderedInsert (fun p q => strLe p.1 q.1 = true) p l).map Prod.fst =
      List.orderedInsert (fun a b => strLe a b = true) p.1 (l.map Prod.fst) := by
  induction l with
  | nil => rfl
  | cons q l ih =>
      simp only [List.orderedInsert, List.map_cons]
      split
      · rfl
      · simp [ih]

theorem map_fst_sortPairs (ps : List (GoString × GoString)) :
    (sortPairs ps).map Prod.fst = sortStrings (ps.map Prod.fst) := by
  induction ps with
  | nil => rfl
  | cons p ps ih =>
      simp only [sortPairs, sortStrings, List.insertionSort, List.map_cons] at ih ⊢
      rw [map_fst_orderedInsert, ih]

theorem sortPairs_perm (ps : List (GoString × GoString)) : (sortPairs ps).Perm ps :=
  List.perm_insertionSort _ ps

/-! ### The map -/

theorem Set_keys (v : Values) (key value : GoString) :
    (v.Set key value).map Prod.fst =
      if key ∈ v.map Prod.fst then v.map Prod.fst else v.map Prod.fst ++ [key] := by
  induction v with
  | nil => simp [Values.Set]
  | cons e rest ih =>
      obtain ⟨k, vs⟩ := e
      simp only [Values.Set]
      by_cases hk : k = key
      · subst hk
        simp
      · have hk2 : ¬ key = k := fun h => hk h.symm
        simp only [hk, if_false, List.map_cons, ih, List.mem_cons, hk2, false_or]
        split <;> simp

theorem Set_keys_nodup (v : Values) (key value : GoString) (h : (v.map Prod.fst).Nodup) :
    ((v.Set key value).map Prod.fst).Nodup := by
  rw [Set_keys]
  split
  · exact h
  · rename_i hk
    rw [List.nodup_append]
    refine ⟨h, List.nodup_singleton _, ?_⟩
    intro a ha hb
    simp only [List.mem_singleton] at hb
    subst hb
    exact hk ha

theorem mem_Set (v : Values) (key value : GoString) (h : (v.map Prod.fst).Nodup)
    (k : GoString) (vs : List GoString) :
    (k, vs) ∈ v.Set key value ↔ (k = key ∧ vs = [value]) ∨ (k ≠ key ∧ (k, vs) ∈ v) := by
  induction v with
  | nil =>
      simp only [Values.Set, List.mem_singleton, Prod.mk.injEq, List.not_mem_nil, and_false,
        or_false]
  | cons e rest ih =>
      obtain ⟨k1, vs1⟩ := e
      simp only [List.map_cons, List.nodup_cons] at h
      simp only [Values.Set]
      by_cases hk : k1 = key
      · subst hk
        simp only [if_true, List.mem_cons, Prod.mk.injEq]
        constructor
        · rintro (⟨h1, h2⟩ | h3)
          · exact Or.inl ⟨h1, h2⟩
          · right
            refine ⟨?_, Or.inr h3⟩
            intro hk
            subst hk
            exact h.1 (List.mem_map_of_mem Prod.fst h3)
        · rintro (⟨h1, h2⟩ | ⟨h1, h2 | h3⟩)
          · exact Or.inl ⟨h1, h2⟩
          · exact absurd h2.1 h1
          · exact Or.inr h3
      · simp only [hk, if_false, List.mem_cons, Prod.mk.injEq, ih h.2]
        constructor
        · rintro (⟨h1, h2⟩ | ⟨h1, h2⟩ | ⟨h1, h2⟩)
          · right
            refine ⟨?_, Or.inl ⟨h1, h2⟩⟩
            intro h3
            exact hk (h1.symm.trans h3)
          · exact Or.inl ⟨h1, h2⟩
          · exact Or.inr ⟨h1, Or.inr h2⟩
        · rintro (⟨h1, h2⟩ | ⟨h1, ⟨h2, h3⟩ | h4⟩)
          · exact Or.inr (Or.inl ⟨h1, h2⟩)
          · exact Or.inl ⟨h2, h3⟩
          · exact Or.inr (Or.inr ⟨h1, h4⟩)

theorem get_of_mem (v : Values) (h : (v.map Prod.fst).Nodup) (k : GoString)
    (vs : List GoString) (hm : (k, vs) ∈ v) : v.get k = vs := by
  induction v with
  | nil => simp at hm
  | cons e rest ih =>
      obtain ⟨k1, vs1⟩ := e
      simp only [List.map_cons, List.nodup_cons] at h
      simp only [List.mem_cons, Prod.mk.injEq] at hm
      simp only [Values.get]
      rcases hm with ⟨h1, h2⟩ | h3
      · simp [h1, h2]
      · have hne : k1 ≠ k := by
          intro hk
          subst hk
          exact h.1 (List.mem_map_of_mem Prod.fst h3)
        simp only [hne, if_false]
        exact ih h.2 h3

/-- The map built by `Set`-ting the pairs one after the other. -/
theorem setAll_spec (ps : List (GoString × GoString)) :
    ∀ (v : Values), (v.map Prod.fst).Nodup →
      ((ps.foldl (fun w p => w.Set p.1 p.2) v).map Prod.fst).Nodup ∧
      ∀ k vs, (k, vs) ∈ ps.foldl (fun w p => w.Set p.1 p.2) v ↔
        (∃ x, vs = [x] ∧ (k, x) ∈ lastWins ps) ∨ ((k, vs) ∈ v ∧ k ∉ ps.map Prod.fst) := by
  induction ps with
  | nil =>
      intro v hv
      simp [lastWins, hv]
  | cons p rest ih =>
      intro v hv
      obtain ⟨pk, px⟩ := p
      have hv1 := Set_keys_nodup v pk px hv
      have ih1 := ih (v.Set pk px) hv1
      simp only [List.foldl_cons]
      refine ⟨ih1.1, ?_⟩
      intro k vs
      rw [ih1.2 k vs, mem_Set v pk px hv k vs]
      simp only [lastWins, List.map_cons, List.mem_cons, not_or]
      by_cases hin : pk ∈ rest.map Prod.fst
      · simp only [hin, if_true]
        constructor
        · rintro (h1 | ⟨⟨h2, _⟩ | ⟨h2, h3⟩, h4⟩)
          · exact Or.inl h1
          · subst h2
            exact absurd hin h4
          · exact Or.inr ⟨h3, h2, h4⟩
        · rintro (h1 | ⟨h3, h2, h4⟩)
          · exact Or.inl h1
          · exact Or.inr ⟨Or.inr ⟨h2, h3⟩, h4⟩
      · simp only [hin, if_false, List.mem_cons, Prod.mk.injEq]
        constructor
        · rintro (⟨x, h1, h2⟩ | ⟨⟨h2, h5⟩ | ⟨h2, h3⟩, h4⟩)
          · exact Or.inl ⟨x, h1, Or.inr h2⟩
          · exact Or.inl ⟨px, h5, Or.inl ⟨h2, rfl⟩⟩
          · exact Or.inr ⟨h3, h2, h4⟩
        · rintro (⟨x, h1, ⟨h2, h5⟩ | h2⟩ | ⟨h3, h2, h4⟩)
          · subst h2
            subst h5
            exact Or.inr ⟨Or.inl ⟨rfl, h1⟩, hin⟩
          · exact Or.inl ⟨x, h1, h2⟩
          · exact Or.inr ⟨Or.inr ⟨h2, h3⟩, h4⟩

theorem lastWins_subset (ps : List (GoString × GoString)) (p : GoString × GoString)
    (h : p ∈ lastWins ps) : p ∈ ps := by
  induction ps with
  | nil => simp [lastWins] at h
  | cons q rest ih =>
      simp only [lastWins] at h
      split at h
      · exact List.mem_cons_of_mem _ (ih h)
      · rcases List.mem_cons.mp h with h1 | h1
        · exact h1 ▸ List.mem_cons_self _ _
        · exact List.mem_cons_of_mem _ (ih h1)

theorem lastWins_keys_nodup (ps : List (GoString × GoString)) :
    ((lastWins ps).map Prod.fst).Nodup := by
  induction ps with
  | nil => simp [lastWins]
  | cons q rest ih =>
      simp only [lastWins]
      split
      · exact ih
      · rename_i hq
        simp only [List.map_cons, List.nodup_cons]
        refine ⟨?_, ih⟩
        intro hmem
        obtain ⟨p, hp, hpe⟩ := List.mem_map.mp hmem
        exact hq (hpe ▸ List.mem_map_of_mem Prod.fst (lastWins_subset rest p hp))

/-! ### Encoding and unescaping -/

theorem joinAmp_cons (part : GoString) (rest : List GoString) :
    joinAmp (part :: rest) = if rest = [] then part else part ++ 38 :: joinAmp rest := by
  cases rest with
  | nil => simp [joinAmp]
  | cons q rest => simp [joinAmp]

theorem foldl_parts (parts : List GoString) (hne : ∀ part ∈ parts, part ≠ []) :
    ∀ buf : GoString,
      parts.foldl (fun buf part => (if buf.length > 0 then buf ++ [38] else buf) ++ part) buf =
        if buf = [] then joinAmp parts
        else if parts = [] then buf else buf ++ 38 :: joinAmp parts := by
  induction parts with
  | nil =>
      intro buf
      by_cases hb : buf = [] <;> simp [hb, joinAmp]
  | cons part rest ih =>
      intro buf
      have hpart : part ≠ [] := hne part (List.mem_cons_self _ _)
      have hrest : ∀ q ∈ rest, q ≠ [] := fun q hq => hne q (List.mem_cons_of_mem _ hq)
      simp only [List.foldl_cons]
      rw [ih hrest, joinAmp_cons]
      by_cases hb : buf = []
      · subst hb
        simp [hpart]
      · have hlen : buf.length > 0 := List.length_pos.mpr hb
        simp only [hlen, if_true, hb, if_false, List.append_eq_nil, List.cons_ne_self,
          and_false, false_and, reduceCtorEq]
        by_cases hr : rest = []
        · simp [hr]
        · simp [hr]

theorem encode_keys (v : Values) (ps : List (GoString × GoString))
    (h : ∀ p ∈ ps, v.get p.1 = [p.2]) :
    ∀ buf : GoString,
      (ps.map Prod.fst).foldl
          (fun buf k =>
            (v.get k).foldl
              (fun buf x =>
                (if buf.length > 0 then buf ++ [38] else buf) ++ QueryEscape k ++ [61]
                  ++ QueryEscape x)
              buf)
          buf =
        (ps.map (fun p => QueryEscape p.1 ++ 61 :: QueryEscape p.2)).foldl
          (fun buf part => (if buf.length > 0 then buf ++ [38] else buf) ++ part) buf := by
  induction ps with
  | nil => intro buf; rfl
  | cons p rest ih =>
      intro buf
      have hp := h p (List.mem_cons_self _ _)
      have hrest : ∀ q ∈ rest, v.get q.1 = [q.2] := fun q hq => h q (List.mem_cons_of_mem _ hq)
      simp only [List.map_cons, List.foldl_cons, hp, List.foldl_nil]
      rw [ih hrest]
      simp [List.append_assoc]

theorem unescape_plain (c : Byte) (rest : GoString) (h : c.val ≠ 37 ∧ c.val ≠ 43) :
    QueryUnescape (c :: rest) = (QueryUnescape rest).map (fun t => c :: t) := by
  rw [QueryUnescape.eq_def (c :: rest)]
  simp only [h.1, h.2, if_false]

theorem unescape_plus (rest : GoString) :
    QueryUnescape (43 :: rest) = (QueryUnescape rest).map (fun t => 32 :: t) := by
  have h43 : (43 : Byte).val = 43 := rfl
  rw [QueryUnescape.eq_def (43 :: rest)]
  simp only [h43]
  simp

theorem unescape_percent (h1 h2 : Byte) (rest : GoString) (hh1 : ishex h1 = true)
    (hh2 : ishex h2 = true) :
    QueryUnescape (37 :: h1 :: h2 :: rest) =
      (QueryUnescape rest).map (fun t => Fin.ofNat ((unhex h1 <<< 4) ||| unhex h2) :: t) := by
  have h37 : (37 : Byte).val = 37 := rfl
  rw [QueryUnescape.eq_def (37 :: h1 :: h2 :: rest)]
  simp only [h37]
  simp [hh1, hh2]

theorem unescape_escape_append (s rest : GoString) :
    QueryUnescape (QueryEscape s ++ rest) = (QueryUnescape rest).map (fun t => s ++ t) := by
  induction s with
  | nil => simp [QueryEscape]
  | cons c s ih =>
      simp only [QueryEscape]
      cases hc : shouldEscape c with
      | false =>
          simp only [Bool.false_eq_true, if_false, List.cons_append]
          rw [unescape_plain c _ (byte_unescaped c hc), ih]
          simp [Option.map_map, Function.comp_def]
      | true =>
          simp only [if_true]
          by_cases hsp : c.val = 32
          · simp only [hsp, if_true, List.cons_append]
            have hc32 : c = 32 := Fin.ext hsp
            rw [unescape_plus, ih]
            simp [Option.map_map, Function.comp_def, hc32]
          · have hb := byte_escaped c hc
            simp only [hsp, if_false, List.cons_append]
            rw [unescape_percent _ _ _ hb.1 hb.2.1, hb.2.2, ih]
            simp [Option.map_map, Function.comp_def]

theorem unescape_part (k x rest : GoString) :
    QueryUnescape ((QueryEscape k ++ 61 :: QueryEscape x) ++ rest) =
      (QueryUnescape rest).map (fun t => (k ++ 61 :: x) ++ t) := by
  rw [List.append_assoc, unescape_escape_append, List.cons_append,
    unescape_plain 61 _ (by decide), unescape_escape_append]
  simp [Option.map_map, Function.comp_def]

theorem unescape_join (ps : List (GoString × GoString)) :
    QueryUnescape (joinAmp (ps.map (fun p => QueryEscape p.1 ++ 61 :: QueryEscape p.2))) =
      some (joinAmp (ps.map renderPair)) := by
  induction ps with
  | nil => simp [joinAmp, QueryUnescape]
  | cons p rest ih =>
      cases rest with
      | nil =>
          have h := unescape_part p.1 p.2 []
          simpa [joinAmp, renderPair, QueryUnescape] using h
      | cons q rest =>
          simp only [List.map_cons, joinAmp] at ih ⊢
          rw [unescape_part, unescape_plain 38 _ (by decide), ih]
          simp [renderPair]

theorem joinAmp_render_eq_nil (ps : List (GoString × GoString)) :
    joinAmp (ps.map renderPair) = [] ↔ ps = [] := by
  cases ps with
  | nil => simp [joinAmp]
  | cons p rest =>
      rw [List.map_cons, joinAmp_cons]
      split <;> simp [renderPair]

/-! ### From the record to the map -/

theorem stringsIndex_cut (s sub : GoString) :
    (stringsIndex s sub = -1 ∧ cutBefore s sub = s) ∨
      (0 ≤ stringsIndex s sub ∧ s.take (stringsIndex s sub).toNat = cutBefore s sub) := by
  induction s with
  | nil =>
      rw [stringsIndex, cutBefore]
      by_cases hp : sub.isPrefixOf [] = true
      · right; simp [hp]
      · left; simp [hp]
  | cons c t ih =>
      rw [stringsIndex, cutBefore]
      by_cases hp : sub.isPrefixOf (c :: t) = true
      · right; simp [hp]
      · simp only [hp, if_false, Bool.false_eq_true]
        rcases ih with ⟨h1, h2⟩ | ⟨h1, h2⟩
        · left
          simp [h1, h2]
        · right
          have hnn : ¬ stringsIndex t sub < 0 := not_lt.mpr h1
          obtain ⟨n, hn⟩ := Int.eq_ofNat_of_zero_le h1
          simp only [hnn, if_false]
          rw [hn] at h2 ⊢
          refine ⟨by omega, ?_⟩
          have : ((n : Int) + 1).toNat = n + 1 := by omega
          rw [this, List.take_succ_cons]
          simpa using h2

theorem cut_key (key : GoString) :
    (if stringsIndex key (ascii ",string") > -1
      then key.take (stringsIndex key (ascii ",string")).toNat else key)
      = cutBefore key (ascii ",string") := by
  rcases stringsIndex_cut key (ascii ",string") with ⟨h1, h2⟩ | ⟨h1, h2⟩
  · simp [h1, h2]
  · have : stringsIndex key (ascii ",string") > -1 := by omega
    simp [this, h2]

theorem json2UrlValuesField_eq {F : Type} (fl : Float64Ops F) (values : Values)
    (f : StructField F) :
    json2UrlValuesField fl values f =
      if signedIncluded fl f = true then values.Set (signedKey f) (valueText fl f)
      else values := by
  obtain ⟨tag, value⟩ := f
  unfold json2UrlValuesField
  by_cases h1 : tag = ascii "-"
  · simp [h1, signedIncluded]
  · by_cases h2 : tag = ascii "sign"
    · simp [h2, signedIncluded]
    · cases value with
      | String val =>
          by_cases hv : val = [] <;> simp [h1, h2, hv, signedIncluded, signedKey, valueText]
      | Float64 val =>
          cases hv : fl.gtZero val <;> simp [h1, h2, hv, signedIncluded, signedKey, valueText]
      | Int val =>
          by_cases hv : 0 < val <;> simp [h1, h2, hv, signedIncluded, signedKey, valueText]
      | Int64 val =>
          by_cases hv : 0 < val
          · have hk := cut_key tag
            simp only [gt_iff_lt] at hk
            simp [h1, h2, hv, signedIncluded, signedKey, valueText, hk]
          · simp [h1, h2, hv, signedIncluded, signedKey, valueText]

theorem json2UrlValues_foldl {F : Type} (fl : Float64Ops F) (data : List (StructField F)) :
    ∀ values : Values,
      data.foldl (json2UrlValuesField fl) values =
        ((data.filter (fun f => signedIncluded fl f)).map
          (fun f => (signedKey f, valueText fl f))).foldl (fun (w : Values) p => w.Set p.1 p.2) values := by
  induction data with
  | nil => intro values; rfl
  | cons f rest ih =>
      intro values
      simp only [List.foldl_cons, json2UrlValuesField_eq, List.filter_cons]
      cases hf : signedIncluded fl f
      · simpa using ih values
      · simpa using ih (values.Set (signedKey f) (valueText fl f))

/-- The query `VerificationSign` gets from `json2UrlValues`, `Encode` and
`QueryUnescape`, whatever order the keys of the map are ranged over. -/
theorem unescape_encode {F : Type} (fl : Float64Ops F) (data : List (StructField F))
    (ranged : List GoString) (hr : ranged.Perm ((json2UrlValues fl data).map Prod.fst)) :
    QueryUnescape ((json2UrlValues fl data).EncodeFrom ranged) = some (signedQuery fl data) := by
  have hv : json2UrlValues fl data =
      ((data.filter (fun f => signedIncluded fl f)).map
        (fun f => (signedKey f, valueText fl f))).foldl (fun (w : Values) p => w.Set p.1 p.2) [] :=
    json2UrlValues_foldl fl data []
  generalize hP : (data.filter (fun f => signedIncluded fl f)).map
      (fun f => (signedKey f, valueText fl f)) = P at hv
  have hspec := setAll_spec P [] (by simp)
  rw [← hv] at hspec
  obtain ⟨hnodup, hmem⟩ := hspec
  have hmem1 : ∀ k vs, (k, vs) ∈ json2UrlValues fl data ↔ ∃ x, vs = [x] ∧ (k, x) ∈ lastWins P := by
    intro k vs
    rw [hmem k vs]
    simp
  have hkeys : ((json2UrlValues fl data).map Prod.fst).Perm ((lastWins P).map Prod.fst) := by
    rw [List.perm_ext_iff_of_nodup hnodup (lastWins_keys_nodup P)]
    intro a
    constructor
    · intro ha
      obtain ⟨⟨k, vs⟩, he, hk⟩ := List.mem_map.mp ha
      obtain ⟨x, _, hx⟩ := (hmem1 k vs).mp he
      simp only at hk
      subst hk
      exact List.mem_map_of_mem Prod.fst hx
    · intro ha
      obtain ⟨⟨k, x⟩, he, hk⟩ := List.mem_map.mp ha
      simp only at hk
      subst hk
      exact List.mem_map_of_mem Prod.fst ((hmem1 k [x]).mpr ⟨x, rfl, he⟩)
  have hsorted : sortStrings ranged = (sortPairs (lastWins P)).map Prod.fst := by
    rw [map_fst_sortPairs]
    exact sortStrings_eq_of_perm _ _ (hr.trans hkeys)
  have hget : ∀ p ∈ sortPairs (lastWins P), (json2UrlValues fl data).get p.1 = [p.2] := by
    intro p hp
    have hp1 : p ∈ lastWins P := (sortPairs_perm (lastWins P)).mem_iff.mp hp
    exact get_of_mem _ hnodup p.1 [p.2] ((hmem1 p.1 [p.2]).mpr ⟨p.2, rfl, hp1⟩)
  have hparts : ∀ part ∈ (sortPairs (lastWins P)).map
      (fun p => QueryEscape p.1 ++ 61 :: QueryEscape p.2), part ≠ [] := by
    intro part hpart
    obtain ⟨p, _, hp⟩ := List.mem_map.mp hpart
    subst hp
    simp
  have henc : (json2UrlValues fl data).EncodeFrom ranged =
      joinAmp ((sortPairs (lastWins P)).map
        (fun p => QueryEscape p.1 ++ 61 :: QueryEscape p.2)) := by
    unfold Values.EncodeFrom
    simp only [hsorted]
    rw [encode_keys _ _ hget [], foldl_parts _ hparts []]
    simp
  rw [henc, unescape_join]
  simp only [signedQuery, signedPairs]
  rw [← hP]

/-- C10 fails as stated: a field holding the number -1 (not 0) is left out
of the query, of two fields with the same tag only the last is in the
query, and a record without fields gets the signature "" and `false`
even for `signValue` "". -/
theorem query_differs_from_claimed :
    (QueryUnescape (json2UrlValues noFloats recordWithNegative).Encode = some (ascii "b=x") ∧
      claimedQuery noFloats (fun _ => true) recordWithNegative = ascii "a=-1&b=x") ∧
    (QueryUnescape (json2UrlValues noFloats recordWithSameTag).Encode = some (ascii "k=y") ∧
      claimedQuery noFloats (fun _ => true) recordWithSameTag = ascii "k=x&k=y") ∧
    VerificationSign zeroDigest noFloats [] (ascii "secret") [] = (false, []) := by
  decide

/-- C10 as amended: the query `VerificationSign` builds is a function of the
record alone (whatever order the map's keys are ranged over): the
`key=value` pairs, sorted ascending by key and joined by `&`, of the fields
whose json tag is neither `-` nor `sign` and whose value is a string other
than "" or a number greater than 0, the key being the json tag (cut
before its first `,string` for an `int64` field) and only the last of
several fields with one key counting. With no such field the result is
`(false, "")`; otherwise the signature is the upper-cased MD5 hex digest
of the query followed by `&key=` and the API secret, and the boolean is
true exactly when `signValue` equals it. -/
theorem VerificationSign_spec {F : Type} (md5Sum : GoString → GoString) (fl : Float64Ops F)
    (data : List (StructField F)) (apiSecret signValue : GoString) :
    (∀ ranged : List GoString, ranged.Perm ((json2UrlValues fl data).map Prod.fst) →
      QueryUnescape ((json2UrlValues fl data).EncodeFrom ranged) = some (signedQuery fl data)) ∧
    VerificationSign md5Sum fl data apiSecret signValue =
      if signedPairs fl data = [] then (false, [])
      else
        (decide (signValue = stringsToUpper (hexEncodeToString
            (md5Sum (signedQuery fl data ++ ascii "&key=" ++ apiSecret)))),
          stringsToUpper (hexEncodeToString
            (md5Sum (signedQuery fl data ++ ascii "&key=" ++ apiSecret)))) := by
  refine ⟨fun ranged hr => unescape_encode fl data ranged hr, ?_⟩
  have hq : QueryUnescape (json2UrlValues fl data).Encode = some (signedQuery fl data) :=
    unescape_encode fl data _ (List.Perm.refl _)
  unfold VerificationSign
  simp only [hq]
  by_cases hp : signedPairs fl data = []
  · have : signedQuery fl data = [] := (joinAmp_render_eq_nil _).mpr hp
    simp [hp, this]
  · have : signedQuery fl data ≠ [] := fun h => hp ((joinAmp_render_eq_nil _).mp h)
    simp [hp, this, sign, md5Sign]

/-- C10 as amended, at a record with a string needing escapes, an `int64`
tagged `,string`, an `int` and a `sign` field, the keys ranged over in
reverse order. -/
theorem VerificationSign_spec_witness :
    QueryUnescape ((json2UrlValues noFloats sampleRecord).EncodeFrom
        [ascii "Age", ascii "id", ascii "name"])
      = some (signedQuery noFloats sampleRecord) ∧
    signedQuery noFloats sampleRecord = ascii "Age=7&id=12&name=x y+%" :=
  ⟨(VerificationSign_spec zeroDigest noFloats sampleRecord (ascii "secret") []).1
      [ascii "Age", ascii "id", ascii "name"] (by decide),
    by decide⟩

end Sign

end ZoKit
